import Mathlib

/-!
Verification of the `sgents` atomic tool layer (`src/sgents/_atomic_tools.py`).

The development shallowly embeds the path-containment resolver
(`AtomicTools._get_safe_path`), the file operations (`make_new_dir`,
`write_in_file`, `append_to_file`, `read_file`, `list_files`), the command
runner (`execute_command`), and the package-name validator
(`AtomicTools._validate_package_name` / `PACKAGE_PATTERN`).

Modelling conventions:
* POSIX path semantics: a path string is split on `/`; empty components and
  `.` components are dropped at parse time (the behaviour of
  `pathlib.PurePosixPath`); a leading `/` marks an absolute path.
* The filesystem is a tree of nodes (`FNode`): regular files hold their
  decoded character content, directories hold their entries in enumeration
  order (the order `Path.iterdir` yields them, which the OS does not sort),
  and symbolic links hold their target path string.
* `Path.resolve()` is modelled by `resolvePath`: components are processed
  left to right, `..` pops the already-resolved prefix, and a symbolic link
  is expanded into its parsed target.  A fuel parameter bounds symlink
  expansions, mirroring the OS `ELOOP` limit; fuel exhaustion is mapped to
  the generic OS-error outcome, like the `OSError` CPython raises on a
  symlink loop.
* File sizes are in bytes (`os.stat().st_size`); text I/O is in characters.
  `utf8Len` gives the UTF-8 byte length of a character list, which relates
  the two, exactly as the Python code mixes `f.read(limit)` (characters)
  with `stat().st_size` (bytes).
* Kernel file operations (`fsMkdirP`, `fsWrite`, `fsAppend`) act on fully
  resolved paths, on which no symlink component remains, so a symlink
  encountered there is treated as an OS error.
* The text of an OS exception (`str(e)`) is abstracted as the token
  `oserrText`; no claim depends on the exact wording of an OS error.
* `subprocess.run` is abstracted by an `ExecOutcome` parameter (the child
  completed with a return code and captured streams, timed out, or failed to
  spawn); the formatting of each outcome is translated from the source.
-/

/-- Split a character list into path components at `/` separators. -/
def splitComps : List Char → List (List Char)
  | [] => [[]]
  | c :: rest =>
    let r := splitComps rest
    if c = '/' then [] :: r
    else
      match r with
      | h :: t => (c :: h) :: t
      | [] => [[c]]

/-- Parse a path string the way `pathlib.PurePosixPath` does: report whether
it is absolute and list its components, dropping empty and `.` components. -/
def parsePath (s : String) : Bool × List String :=
  let cs := s.data
  let isAbs := match cs with
    | '/' :: _ => true
    | _ => false
  let comps := (splitComps cs).map (fun l => (⟨l⟩ : String))
  (isAbs, comps.filter (fun c => c != "" && c != "."))

/-- Join a parsed path onto a base, as `pathlib.Path.__truediv__` does: an
absolute right-hand side discards the base. -/
def pathJoin (base : List String) (p : Bool × List String) : List String :=
  if p.1 then p.2 else base ++ p.2

/-- Render an absolute path from its components, as `str(Path(...))` does. -/
def pathStr (r : List String) : String :=
  "/" ++ String.intercalate "/" r

/-- Filesystem node: a regular file with its decoded character content, a
directory with its entries in enumeration order, or a symbolic link with its
target path string. -/
inductive FNode where
  | file (content : List Char)
  | dir (entries : List (String × FNode))
  | symlink (target : String)

/-- First entry of an association list with the given name, as directory
lookup returns it. -/
def lookupEntry : List (String × FNode) → String → Option FNode
  | [], _ => none
  | (n, v) :: es, name => if n = name then some v else lookupEntry es name

/-- Replace the first entry with the given name by a new node. -/
def replaceEntry : List (String × FNode) → String → FNode → List (String × FNode)
  | [], _, _ => []
  | (n, v) :: es, name, v2 =>
    if n = name then (n, v2) :: es else (n, v) :: replaceEntry es name v2

/-- Follow a component path down the tree without resolving symlinks. -/
def fsLookup : List String → FNode → Option FNode
  | [], n => some n
  | c :: rest, .dir es =>
    match lookupEntry es c with
    | some child => fsLookup rest child
    | none => none
  | _ :: _, .file _ => none
  | _ :: _, .symlink _ => none

/-- Target of the symbolic link at a path, if the path names a symlink. -/
def symlinkAt (fs : FNode) (p : List String) : Option String :=
  match fsLookup p fs with
  | some (.symlink t) => some t
  | _ => none

/-- Worker for `resolvePath`: `cur` is the already-resolved prefix, the list
is what remains to process.  `..` pops the resolved prefix (the parent of the
root is the root); a symlink component restarts from its parsed target.  Fuel
bounds the number of processing steps. -/
def resolveGo : Nat → FNode → List String → List String → Option (List String)
  | 0, _, _, _ => none
  | _ + 1, _, cur, [] => some cur
  | fuel + 1, fs, cur, c :: rest =>
    if c = "." then resolveGo fuel fs cur rest
    else if c = ".." then resolveGo fuel fs cur.dropLast rest
    else
      match symlinkAt fs (cur ++ [c]) with
      | some t =>
        let pr := parsePath t
        resolveGo fuel fs (if pr.1 then [] else cur) (pr.2 ++ rest)
      | none => resolveGo fuel fs (cur ++ [c]) rest

/-- Model of `Path.resolve(strict=False)` on an absolute component list. -/
def resolvePath (fuel : Nat) (fs : FNode) (p : List String) : Option (List String) :=
  resolveGo fuel fs [] p

/-- Stand-in for the text of an OS-level exception (`str(e)`); the claims
never depend on this wording. -/
def oserrText : String := "[OSError]"

/-- Message carried by the `ValueError` that `_get_safe_path` raises. -/
def escapeMsg (filename : String) : String :=
  "非法路径访问：" ++ filename ++ " (超出工作区范围)"

/-- Failure of the path guard: the `ValueError` for a containment violation,
or any other OS-level exception (for example a symlink loop in `resolve`). -/
inductive GuardErr where
  | escape (msg : String)
  | os (msg : String)

/-- Model of `AtomicTools._get_safe_path`: join the argument onto the
workspace, resolve both sides fresh, and require the resolved workspace to be
a component prefix of the resolved target (`Path.relative_to`). -/
def get_safe_path (fuel : Nat) (fs : FNode) (ws : List String) (filename : String) :
    Except GuardErr (List String) :=
  let target := pathJoin ws (parsePath filename)
  match resolvePath fuel fs target, resolvePath fuel fs ws with
  | some absTarget, some absWorkspace =>
    if absWorkspace.isPrefixOf absTarget then .ok absTarget
    else .error (.escape (escapeMsg filename))
  | _, _ => .error (.os oserrText)

/-- UTF-8 byte width of one character. -/
def utf8CharBytes (c : Char) : Nat :=
  if c.toNat < 0x80 then 1
  else if c.toNat < 0x800 then 2
  else if c.toNat < 0x10000 then 3
  else 4

/-- UTF-8 byte length of a character list: the `st_size` of a text file
holding exactly these characters. -/
def utf8Len (cs : List Char) : Nat := (cs.map utf8CharBytes).sum

/-- Model of `Path.mkdir(parents=True, exist_ok=True)` at a resolved path:
creates missing directories along the path; an existing directory is kept; a
file (or symlink) in the way is an error. -/
def fsMkdirP : List String → FNode → Option FNode
  | [], .dir es => some (.dir es)
  | [], _ => none
  | c :: rest, .dir es =>
    match lookupEntry es c with
    | some child => (fsMkdirP rest child).map (fun ch => FNode.dir (replaceEntry es c ch))
    | none => (fsMkdirP rest (.dir [])).map (fun ch => FNode.dir (es ++ [(c, ch)]))
  | _ :: _, .file _ => none
  | _ :: _, .symlink _ => none

/-- Model of `open(path, "w")` followed by writing `content` at a resolved
path: overwrites an existing file, creates the file if the parent directory
exists, errors if the target is a directory or a parent is missing. -/
def fsWrite : List String → List Char → FNode → Option FNode
  | [], content, .file _ => some (.file content)
  | [], _, .dir _ => none
  | [], _, .symlink _ => none
  | name :: rest, content, .dir es =>
    match lookupEntry es name with
    | some child => (fsWrite rest content child).map (fun ch => FNode.dir (replaceEntry es name ch))
    | none =>
      if rest.isEmpty then some (.dir (es ++ [(name, .file content)])) else none
  | _ :: _, _, .file _ => none
  | _ :: _, _, .symlink _ => none

/-- Model of `open(path, "a")` followed by writing `content`: appends to an
existing file, creates the file if absent (parent existing). -/
def fsAppend : List String → List Char → FNode → Option FNode
  | [], content, .file old => some (.file (old ++ content))
  | [], _, .dir _ => none
  | [], _, .symlink _ => none
  | name :: rest, content, .dir es =>
    match lookupEntry es name with
    | some child => (fsAppend rest content child).map (fun ch => FNode.dir (replaceEntry es name ch))
    | none =>
      if rest.isEmpty then some (.dir (es ++ [(name, .file content)])) else none
  | _ :: _, _, .file _ => none
  | _ :: _, _, .symlink _ => none

/-- Model of the frozen `Config` dataclass.  `workspace` holds the component
list of the absolute workspace root (resolved at construction, as
`__post_init__` does). -/
structure Config where
  workspace : List String
  sandbox_enabled : Bool := true
  sandbox_path : String := "D:\\sandboxieplus\\Sandboxie-Plus"
  command_timeout : Nat := 60
  max_output_length : Nat := 10000
  max_file_size : Nat := 1024 * 100
  default_encoding : String := "utf-8"

/-- Model of `AtomicTools.make_new_dir`. -/
def make_new_dir (fuel : Nat) (cfg : Config) (fs : FNode) (dir_name : String) :
    String × FNode :=
  match get_safe_path fuel fs cfg.workspace dir_name with
  | .error (.escape m) => ("错误：" ++ m, fs)
  | .error (.os m) => ("创建失败：" ++ m, fs)
  | .ok r =>
    match fsMkdirP r fs with
    | some fs2 => ("目录 " ++ pathStr r ++ " 创建成功。", fs2)
    | none => ("创建失败：" ++ oserrText, fs)

/-- Model of `AtomicTools.write_in_file`: guard the path, create the parent
directories of the resolved target, then overwrite it. -/
def write_in_file (fuel : Nat) (cfg : Config) (fs : FNode) (file_path : String)
    (content : String) : String × FNode :=
  match get_safe_path fuel fs cfg.workspace file_path with
  | .error (.escape m) => ("错误：" ++ m, fs)
  | .error (.os m) => ("写入失败：" ++ m, fs)
  | .ok r =>
    match fsMkdirP r.dropLast fs with
    | none => ("写入失败：" ++ oserrText, fs)
    | some fs1 =>
      match fsWrite r content.data fs1 with
      | some fs2 => ("文件 " ++ pathStr r ++ " 写入成功。", fs2)
      | none => ("写入失败：" ++ oserrText, fs1)

/-- Model of `AtomicTools.append_to_file`. -/
def append_to_file (fuel : Nat) (cfg : Config) (fs : FNode) (file_path : String)
    (content : String) : String × FNode :=
  match get_safe_path fuel fs cfg.workspace file_path with
  | .error (.escape m) => ("错误：" ++ m, fs)
  | .error (.os m) => ("追加失败：" ++ m, fs)
  | .ok r =>
    match fsMkdirP r.dropLast fs with
    | none => ("追加失败：" ++ oserrText, fs)
    | some fs1 =>
      match fsAppend r content.data fs1 with
      | some fs2 => ("已向 " ++ pathStr r ++ " 追加内容。", fs2)
      | none => ("追加失败：" ++ oserrText, fs1)

/-- Truncation notice `read_file` appends to an oversized file: a fixed
string naming the 100KB default cap. -/
def truncNotice : String := "\n... (文件过大，仅显示前 100KB 内容)"

/-- Model of `AtomicTools.read_file`: guard the path, report a missing file
or a directory, otherwise return `f.read(max_file_size)` — the first
`max_file_size` *characters* — appending `truncNotice` when the file's byte
size (`st_size`) exceeds `max_file_size`. -/
def read_file (fuel : Nat) (cfg : Config) (fs : FNode) (file_path : String) :
    String × FNode :=
  match get_safe_path fuel fs cfg.workspace file_path with
  | .error (.escape m) => ("错误：" ++ m, fs)
  | .error (.os m) => ("读取失败：" ++ m, fs)
  | .ok r =>
    match fsLookup r fs with
    | none => ("错误：文件 " ++ file_path ++ " 不存在。", fs)
    | some (.dir _) => ("错误：" ++ file_path ++ " 是一个目录，请使用 list_files 查看。", fs)
    | some (.symlink _) => ("读取失败：" ++ oserrText, fs)
    | some (.file ct) =>
      let content : String := ⟨ct.take cfg.max_file_size⟩
      if utf8Len ct > cfg.max_file_size then (content ++ truncNotice, fs)
      else (content, fs)

/-- One output line of `list_files`, translated from the loop body: the
prefix is `"[DIR] "` for a directory and `"[FILE]"` otherwise, a file line
additionally reports its byte size. -/
def fmtEntry : String × FNode → String
  | (name, .dir _) => "[DIR] " ++ " " ++ name
  | (name, .file ct) => "[FILE]" ++ " " ++ name ++ " (" ++ toString (utf8Len ct) ++ " bytes)"
  | (name, .symlink _) => "[FILE]" ++ " " ++ name

/-- Model of `AtomicTools.list_files`: guard the path, report a missing
directory, report an empty directory with a distinct message, otherwise emit
one line per entry in enumeration order (the code performs no sorting and no
directory/file partitioning). -/
def list_files (fuel : Nat) (cfg : Config) (fs : FNode) (dir_name : String) :
    String × FNode :=
  match get_safe_path fuel fs cfg.workspace dir_name with
  | .error (.escape m) => ("错误：" ++ m, fs)
  | .error (.os m) => ("列出文件失败：" ++ m, fs)
  | .ok r =>
    match fsLookup r fs with
    | none => ("错误：目录 " ++ dir_name ++ " 不存在。", fs)
    | some (.file _) => ("列出文件失败：" ++ oserrText, fs)
    | some (.symlink _) => ("列出文件失败：" ++ oserrText, fs)
    | some (.dir es) =>
      if es.isEmpty then ("目录为空。", fs)
      else (String.intercalate "\n" (es.map fmtEntry), fs)

/-- Result of a child process that ran to completion, as
`subprocess.CompletedProcess` delivers it: return code and captured decoded
streams. -/
structure CompletedProcess where
  returncode : Int
  stdout : String
  stderr : String

/-- Outcome of `subprocess.run` on the effective command: completion, the
`TimeoutExpired` exception, or any other spawn failure with its text. -/
inductive ExecOutcome where
  | completed (r : CompletedProcess)
  | timeout
  | failure (msg : String)

/-- Location of the Sandboxie launcher, `Path(config.sandbox_path) / "Start.exe"`. -/
def start_path (cfg : Config) : String := cfg.sandbox_path ++ "/Start.exe"

/-- Effective command string: when the sandbox is enabled and the launcher
executable exists, the quoted launcher is prefixed to the command. -/
def run_command (cfg : Config) (startExists : Bool) (command : String) : String :=
  if cfg.sandbox_enabled && startExists then
    "\"" ++ start_path cfg ++ "\" " ++ command
  else command

/-- First `n` characters of a string, as Python slicing `s[:n]` takes them. -/
def strTake (s : String) (n : Nat) : String := ⟨s.data.take n⟩

/-- Model of `AtomicTools.execute_command`: build the effective command, then
map the outcome of `subprocess.run` to the result text, translated statement
by statement from the source (return-code line; stdout section with
truncation to `max_output_length` characters and a notice when the original
was longer; the same independently for stderr). -/
def execute_command (cfg : Config) (startExists : Bool) (command : String)
    (outcome : ExecOutcome) : String :=
  let _run := run_command cfg startExists command
  match outcome with
  | .timeout => "错误：命令执行超时。"
  | .failure m => "错误：" ++ m
  | .completed r =>
    let output := "返回码：" ++ toString r.returncode ++ "\n"
    let output :=
      if r.stdout.isEmpty then output
      else
        let o := output ++ "输出:\n" ++ strTake r.stdout cfg.max_output_length ++ "\n"
        if r.stdout.length > cfg.max_output_length then o ++ "\n... (输出过长，已截断)" else o
    let output :=
      if r.stderr.isEmpty then output
      else
        let o := output ++ "错误:\n" ++ strTake r.stderr cfg.max_output_length
        if r.stderr.length > cfg.max_output_length then o ++ "\n... (错误信息过长，已截断)" else o
    output

/-- Character class `[a-zA-Z0-9_-]` of `PACKAGE_PATTERN` (literal ASCII
ranges). -/
def isPkgChar (c : Char) : Bool :=
  ('a' ≤ c && c ≤ 'z') || ('A' ≤ c && c ≤ 'Z') || ('0' ≤ c && c ≤ '9') || c = '_' || c = '-'

/-- Closing half of the extras group: a `]` followed by the end anchor. -/
def closeGroup (endOk : List Char → Bool) : List Char → Bool
  | c2 :: r3 => if c2 = ']' then endOk r3 else false
  | [] => false

/-- Match of the optional extras group `(\[[a-zA-Z0-9_-]+\])?` followed by
the end anchor, starting from `rest`.  The class excludes `[`, `]` and
newline, so maximal munch is exact and no backtracking is lost. -/
def bracketGroup (endOk : List Char → Bool) : List Char → Bool
  | c :: r =>
    if c = '[' then
      !(r.takeWhile isPkgChar).isEmpty && closeGroup endOk (r.dropWhile isPkgChar)
    else false
  | [] => false

/-- Anchored match of `[a-zA-Z0-9_-]+(\[[a-zA-Z0-9_-]+\])?` followed by the
end test `endOk`. -/
def pkgMatchEnd (endOk : List Char → Bool) (s : List Char) : Bool :=
  let core := s.takeWhile isPkgChar
  let rest := s.dropWhile isPkgChar
  !core.isEmpty && (endOk rest || bracketGroup endOk rest)

/-- Python `$` (no `re.MULTILINE`): matches at the end of the string or just
before one newline at the end of the string. -/
def pyDollar (l : List Char) : Bool := l.isEmpty || l = ['\n']

/-- Plain end of string. -/
def atEnd (l : List Char) : Bool := l.isEmpty

/-- Model of `AtomicTools._validate_package_name`:
`bool(PACKAGE_PATTERN.match(package_name))` with `PACKAGE_PATTERN` compiled
from `^[a-zA-Z0-9_-]+(\[[a-zA-Z0-9_-]+\])?$`, where `$` has the Python
semantics `pyDollar`. -/
def validate_package_name (s : String) : Bool := pkgMatchEnd pyDollar s.data

/-- Pattern of claim C3's words: one or more characters of the class,
optionally followed by a single bracket-delimited extras group of the same
class, with nothing after it (strict end of string). -/
def package_name_spec (s : String) : Bool := pkgMatchEnd atEnd s.data

/-- Model of `AtomicTools.install_package`: validate the name, refuse with an
error string without running anything, otherwise delegate the fixed installer
template to `execute_command`. -/
def install_package (cfg : Config) (startExists : Bool) (package_name : String)
    (outcome : ExecOutcome) : String :=
  if !validate_package_name package_name then
    "错误：无效的包名格式：" ++ package_name
  else
    execute_command cfg startExists ("uv pip install -q " ++ package_name) outcome

/-- Error markers the operation boundary prefixes to every converted
failure. -/
def errorMarkers : List String :=
  ["错误：", "创建失败：", "写入失败：", "追加失败：", "读取失败：", "列出文件失败："]

/-- A result string that reports a failure: it starts with one of the error
markers. -/
def errorMarked (s : String) : Prop :=
  ∃ m rest, m ∈ errorMarkers ∧ s = m ++ rest

/-- Workspace fixture for concrete evaluations: an empty workspace directory
`/ws` at the root. -/
def fsW : FNode := .dir [("ws", .dir [])]

/-- Configuration fixture rooted at `/ws` with the source defaults. -/
def cfgW : Config := { workspace := ["ws"] }

/-- Fixture for C4: workspace holding `big.txt` whose content is the three
characters `é`, `é`, `a` — five UTF-8 bytes. -/
def fsBig : FNode := .dir [("ws", .dir [("big.txt", .file "ééa".data)])]

/-- Configuration for C4: `max_file_size` of 4 bytes, one less than the byte
size of `big.txt`. -/
def cfgSmall : Config := { workspace := ["ws"], max_file_size := 4 }

/-- Fixture for C5: workspace directory `d` whose enumeration order yields
the one-byte file `a.txt` before the subdirectory `b`. -/
def fsList : FNode :=
  .dir [("ws", .dir [("d", .dir [("a.txt", .file ['x']), ("b", .dir [])])])]

/-- Workspace holding the two-character file `a.txt`: the state after
writing `"hi"` to `a.txt` in the empty `/ws` workspace. -/
def fsWHi : FNode := .dir [("ws", .dir [("a.txt", .file "hi".data)])]

/-- Workspace holding the three-byte ASCII file `f.txt`. -/
def fsAscii : FNode := .dir [("ws", .dir [("f.txt", .file "abc".data)])]

/-- Configuration with a 2-byte read cap, one less than the size of
`f.txt`. -/
def cfgTwo : Config := { workspace := ["ws"], max_file_size := 2 }

/-- A regular file node contains no symlink at any path. -/
theorem symlinkAt_file_node (c : List Char) (q : List String) :
    symlinkAt (.file c) q = none := by
  cases q <;> rfl

/-- The empty directory contains no symlink at any path. -/
theorem symlinkAt_empty_dir (q : List String) : symlinkAt (.dir []) q = none := by
  cases q <;> rfl

/-- Unfolding `symlinkAt` one directory level. -/
theorem symlinkAt_dir_cons (es : List (String × FNode)) (d : String) (qr : List String) :
    symlinkAt (.dir es) (d :: qr) =
      (match lookupEntry es d with
       | some ch => symlinkAt ch qr
       | none => none) := by
  cases h : lookupEntry es d <;> simp [symlinkAt, fsLookup, h]

/-- Lookup after replacing the first entry with an existing name. -/
theorem lookupEntry_replace (es : List (String × FNode)) (c : String) (v : FNode)
    (d : String) (h : (lookupEntry es c).isSome = true) :
    lookupEntry (replaceEntry es c v) d = if d = c then some v else lookupEntry es d := by
  induction es with
  | nil => simp [lookupEntry] at h
  | cons e es ih =>
    obtain ⟨n, w⟩ := e
    by_cases hn : n = c
    · subst hn
      by_cases hd : d = n
      · subst hd; simp [replaceEntry, lookupEntry]
      · have hnd : ¬ n = d := fun h2 => hd (Eq.symm h2)
        simp [replaceEntry, lookupEntry, hd, hnd]
    · have h2 : (lookupEntry es c).isSome = true := by
        simpa [lookupEntry, hn] using h
      by_cases hd : n = d
      · subst hd
        have hdc : ¬ n = c := hn
        simp [replaceEntry, lookupEntry, hn, if_neg (fun h => hn (Eq.symm h))]
      · simp [replaceEntry, lookupEntry, hn, hd, ih h2]

/-- Lookup after appending a fresh entry at the end of a directory. -/
theorem lookupEntry_append (es : List (String × FNode)) (c : String) (v : FNode)
    (d : String) :
    lookupEntry (es ++ [(c, v)]) d =
      (lookupEntry es d).or (if d = c then some v else none) := by
  induction es with
  | nil =>
    by_cases hd : c = d
    · subst hd; simp [lookupEntry]
    · simp [lookupEntry, hd, if_neg (fun h => hd (Eq.symm h))]
  | cons e es ih =>
    obtain ⟨n, w⟩ := e
    by_cases hn : n = d
    · subst hn; simp [lookupEntry]
    · simp [lookupEntry, hn, ih]

/-- Replacing a child by one with the same symlink structure preserves
`symlinkAt` on the whole directory. -/
theorem symlinkAt_dir_replace (es : List (String × FNode)) (c : String)
    (child ch : FNode) (hle : lookupEntry es c = some child)
    (hch : ∀ q, symlinkAt ch q = symlinkAt child q) :
    ∀ q, symlinkAt (.dir (replaceEntry es c ch)) q = symlinkAt (.dir es) q := by
  intro q
  cases q with
  | nil => rfl
  | cons d qr =>
    rw [symlinkAt_dir_cons, symlinkAt_dir_cons,
      lookupEntry_replace es c ch d (by rw [hle]; rfl)]
    by_cases hd : d = c
    · subst hd; rw [hle]; simpa using hch qr
    · simp [hd]

/-- Appending a symlink-free child under a fresh name preserves `symlinkAt`
on the whole directory. -/
theorem symlinkAt_dir_extend (es : List (String × FNode)) (c : String) (ch : FNode)
    (hle : lookupEntry es c = none) (hch : ∀ q, symlinkAt ch q = none) :
    ∀ q, symlinkAt (.dir (es ++ [(c, ch)])) q = symlinkAt (.dir es) q := by
  intro q
  cases q with
  | nil => rfl
  | cons d qr =>
    rw [symlinkAt_dir_cons, symlinkAt_dir_cons, lookupEntry_append]
    cases hld : lookupEntry es d with
    | some x => simp
    | none =>
      by_cases hd : d = c
      · simp [hd, hch qr]
      · simp [hd]

/-- `fsMkdirP` never creates, removes or retargets a symlink. -/
theorem symlinkAt_fsMkdirP : ∀ (p : List String) (n n2 : FNode),
    fsMkdirP p n = some n2 → ∀ q, symlinkAt n2 q = symlinkAt n q := by
  intro p
  induction p with
  | nil =>
    intro n n2 h q
    cases n with
    | dir es => simp [fsMkdirP] at h; subst h; rfl
    | file c => simp [fsMkdirP] at h
    | symlink t => simp [fsMkdirP] at h
  | cons c rest ih =>
    intro n n2 h q
    cases n with
    | file cc => simp [fsMkdirP] at h
    | symlink t => simp [fsMkdirP] at h
    | dir es =>
      cases hle : lookupEntry es c with
      | some child =>
        rw [fsMkdirP, hle] at h
        obtain ⟨ch, hch, rfl⟩ := Option.map_eq_some'.mp h
        exact symlinkAt_dir_replace es c child ch hle (ih child ch hch) q
      | none =>
        rw [fsMkdirP, hle] at h
        obtain ⟨ch, hch, rfl⟩ := Option.map_eq_some'.mp h
        have hfree : ∀ q2, symlinkAt ch q2 = none := by
          intro q2
          rw [ih (.dir []) ch hch q2]
          exact symlinkAt_empty_dir q2
        exact symlinkAt_dir_extend es c ch hle hfree q

/-- `fsWrite` never creates, removes or retargets a symlink. -/
theorem symlinkAt_fsWrite : ∀ (p : List String) (c : List Char) (n n2 : FNode),
    fsWrite p c n = some n2 → ∀ q, symlinkAt n2 q = symlinkAt n q := by
  intro p
  induction p with
  | nil =>
    intro c n n2 h q
    cases n with
    | file old =>
      simp [fsWrite] at h; subst h
      rw [symlinkAt_file_node, symlinkAt_file_node]
    | dir es => simp [fsWrite] at h
    | symlink t => simp [fsWrite] at h
  | cons name rest ih =>
    intro c n n2 h q
    cases n with
    | file cc => simp [fsWrite] at h
    | symlink t => simp [fsWrite] at h
    | dir es =>
      cases hle : lookupEntry es name with
      | some child =>
        rw [fsWrite, hle] at h
        obtain ⟨ch, hch, rfl⟩ := Option.map_eq_some'.mp h
        exact symlinkAt_dir_replace es name child ch hle (ih c child ch hch) q
      | none =>
        rw [fsWrite, hle] at h
        cases hre : rest.isEmpty with
        | false => rw [hre] at h; simp at h
        | true =>
          rw [hre] at h
          simp at h
          subst h
          exact symlinkAt_dir_extend es name (.file c) hle
            (fun q2 => symlinkAt_file_node c q2) q

/-- `fsAppend` never creates, removes or retargets a symlink. -/
theorem symlinkAt_fsAppend : ∀ (p : List String) (c : List Char) (n n2 : FNode),
    fsAppend p c n = some n2 → ∀ q, symlinkAt n2 q = symlinkAt n q := by
  intro p
  induction p with
  | nil =>
    intro c n n2 h q
    cases n with
    | file old =>
      simp [fsAppend] at h; subst h
      rw [symlinkAt_file_node, symlinkAt_file_node]
    | dir es => simp [fsAppend] at h
    | symlink t => simp [fsAppend] at h
  | cons name rest ih =>
    intro c n n2 h q
    cases n with
    | file cc => simp [fsAppend] at h
    | symlink t => simp [fsAppend] at h
    | dir es =>
      cases hle : lookupEntry es name with
      | some child =>
        rw [fsAppend, hle] at h
        obtain ⟨ch, hch, rfl⟩ := Option.map_eq_some'.mp h
        exact symlinkAt_dir_replace es name child ch hle (ih c child ch hch) q
      | none =>
        rw [fsAppend, hle] at h
        cases hre : rest.isEmpty with
        | false => rw [hre] at h; simp at h
        | true =>
          rw [hre] at h
          simp at h
          subst h
          exact symlinkAt_dir_extend es name (.file c) hle
            (fun q2 => symlinkAt_file_node c q2) q

/-- `resolveGo` consults the filesystem only through `symlinkAt`, so two
filesystems with the same symlink structure resolve every path alike. -/
theorem resolveGo_congr (fs fs2 : FNode)
    (h : ∀ q, symlinkAt fs2 q = symlinkAt fs q) :
    ∀ (fuel : Nat) (cur p : List String),
      resolveGo fuel fs2 cur p = resolveGo fuel fs cur p := by
  intro fuel
  induction fuel with
  | zero => intro cur p; rfl
  | succ fuel ih =>
    intro cur p
    cases p with
    | nil => rfl
    | cons c rest =>
      rw [resolveGo, resolveGo, h (cur ++ [c])]
      by_cases hc : c = "."
      · simp [hc, ih]
      · by_cases hcc : c = ".."
        · simp [hc, hcc, ih]
        · simp only [hc, hcc, if_false]
          cases symlinkAt fs (cur ++ [c]) with
          | some t => simp [ih]
          | none => simp [ih]

/-- Two filesystems with the same symlink structure give the same guard
verdict for every path. -/
theorem get_safe_path_congr (fuel : Nat) (fs fs2 : FNode) (ws : List String)
    (p : String) (h : ∀ q, symlinkAt fs2 q = symlinkAt fs q) :
    get_safe_path fuel fs2 ws p = get_safe_path fuel fs ws p := by
  simp only [get_safe_path, resolvePath]
  rw [resolveGo_congr fs fs2 h fuel [] (pathJoin ws (parsePath p)),
    resolveGo_congr fs fs2 h fuel [] ws]

/-- After a successful `fsWrite`, the written path holds exactly the written
file. -/
theorem fsLookup_fsWrite : ∀ (p : List String) (c : List Char) (n n2 : FNode),
    fsWrite p c n = some n2 → fsLookup p n2 = some (.file c) := by
  intro p
  induction p with
  | nil =>
    intro c n n2 h
    cases n with
    | file old => simp [fsWrite] at h; subst h; rfl
    | dir es => simp [fsWrite] at h
    | symlink t => simp [fsWrite] at h
  | cons name rest ih =>
    intro c n n2 h
    cases n with
    | file cc => simp [fsWrite] at h
    | symlink t => simp [fsWrite] at h
    | dir es =>
      cases hle : lookupEntry es name with
      | some child =>
        rw [fsWrite, hle] at h
        obtain ⟨ch, hch, rfl⟩ := Option.map_eq_some'.mp h
        rw [fsLookup, lookupEntry_replace es name ch name (by rw [hle]; rfl)]
        simp [ih c child ch hch]
      | none =>
        rw [fsWrite, hle] at h
        cases hre : rest.isEmpty with
        | false => rw [hre] at h; simp at h
        | true =>
          rw [hre] at h
          simp at h
          subst h
          have hrest : rest = [] := List.isEmpty_iff.mp hre
          subst hrest
          rw [fsLookup, lookupEntry_append, hle]
          simp [fsLookup]

/-- Every character takes at least one UTF-8 byte. -/
theorem one_le_utf8CharBytes (c : Char) : 1 ≤ utf8CharBytes c := by
  unfold utf8CharBytes
  split_ifs <;> omega

/-- A character list never has more characters than UTF-8 bytes. -/
theorem length_le_utf8Len (cs : List Char) : cs.length ≤ utf8Len cs := by
  induction cs with
  | nil => simp [utf8Len]
  | cons c cs ih =>
    have h1 := one_le_utf8CharBytes c
    have h2 : utf8Len (c :: cs) = utf8CharBytes c + utf8Len cs := by
      simp [utf8Len]
    rw [List.length_cons, h2]
    omega

/-- An all-ASCII character list has as many UTF-8 bytes as characters. -/
theorem utf8Len_ascii : ∀ (cs : List Char), (∀ c ∈ cs, utf8CharBytes c = 1) →
    utf8Len cs = cs.length := by
  intro cs
  induction cs with
  | nil => intro _; rfl
  | cons c cs ih =>
    intro h
    have hc : utf8CharBytes c = 1 := h c (by simp)
    have hrest : ∀ x ∈ cs, utf8CharBytes x = 1 := fun x hx => h x (by simp [hx])
    have h2 : utf8Len (c :: cs) = utf8CharBytes c + utf8Len cs := by
      simp [utf8Len]
    rw [List.length_cons, h2, hc, ih hrest]
    omega

/-- Two appends with distinct head characters are distinct strings. -/
theorem append_head_ne (a b x y : String) (ca cx : Char) (la lx : List Char)
    (ha : a.data = ca :: la) (hx : x.data = cx :: lx) (hne : ca ≠ cx) :
    a ++ b ≠ x ++ y := by
  intro h
  have h2 := congrArg String.data h
  rw [String.data_append, String.data_append, ha, hx] at h2
  exact hne (by injection h2 with h3 _)

/-- Mutual component prefixes are equal. -/
theorem isPrefixOf_antisymm (t w : List String) (h1 : t.isPrefixOf w = true)
    (h2 : w.isPrefixOf t = true) : t = w := by
  obtain ⟨u, hu⟩ := List.isPrefixOf_iff_prefix.mp h1
  obtain ⟨v, hv⟩ := List.isPrefixOf_iff_prefix.mp h2
  rw [← hu, List.append_assoc] at hv
  have h3 : u ++ v = [] := by
    have h4 := congrArg List.length hv
    simp at h4
    rcases h4 with ⟨h5, h6⟩
    simp [h5, h6]
  have h5 : u = [] := by
    cases u with
    | nil => rfl
    | cons a l => simp at h3
  rw [← hu, h5, List.append_nil]

/-- Maximal munch over an all-class run stops exactly at a non-class
character. -/
theorem takeWhile_append_not (p : Char → Bool) :
    ∀ (t rest : List Char), (∀ x ∈ t, p x = true) →
      (∀ c r2, rest = c :: r2 → p c = false) →
      (t ++ rest).takeWhile p = t ∧ (t ++ rest).dropWhile p = rest := by
  intro t
  induction t with
  | nil =>
    intro rest _ hr
    cases rest with
    | nil => simp
    | cons c r2 =>
      have hc := hr c r2 rfl
      simp [List.takeWhile_cons, List.dropWhile_cons, hc]
  | cons a t ih =>
    intro rest ht hr
    have ha : p a = true := ht a (by simp)
    have ih2 := ih rest (fun x hx => ht x (by simp [hx])) hr
    simp [List.takeWhile_cons, List.dropWhile_cons, ha, ih2.1, ih2.2]

/-- The head of a `dropWhile` residue fails the predicate. -/
theorem dropWhile_head_false (p : Char → Bool) :
    ∀ (l : List Char) (c : Char) (r : List Char),
      l.dropWhile p = c :: r → p c = false := by
  intro l
  induction l with
  | nil => intro c r h; simp at h
  | cons a l ih =>
    intro c r h
    cases hpa : p a with
    | true =>
      rw [List.dropWhile_cons, hpa] at h
      simp at h
      exact ih c r h
    | false =>
      rw [List.dropWhile_cons, hpa] at h
      simp at h
      rw [← h.1]
      exact hpa

/-- Unfolding equation for `pkgMatchEnd`. -/
theorem pkgMatchEnd_eq (e : List Char → Bool) (l : List Char) :
    pkgMatchEnd e l =
      (!(l.takeWhile isPkgChar).isEmpty &&
        (e (l.dropWhile isPkgChar) || bracketGroup e (l.dropWhile isPkgChar))) := rfl

/-- Unfolding equation for `bracketGroup` on a cons cell. -/
theorem bracketGroup_cons (e : List Char → Bool) (c : Char) (r : List Char) :
    bracketGroup e (c :: r) =
      (if c = '[' then
        !(r.takeWhile isPkgChar).isEmpty && closeGroup e (r.dropWhile isPkgChar)
      else false) := rfl

/-- An empty residue holds no extras group. -/
theorem bracketGroup_nil (e : List Char → Bool) : bracketGroup e [] = false := rfl

/-- Unfolding equation for `closeGroup` on a cons cell. -/
theorem closeGroup_cons (e : List Char → Bool) (c2 : Char) (r3 : List Char) :
    closeGroup e (c2 :: r3) = (if c2 = ']' then e r3 else false) := rfl

/-- An empty residue has no closing bracket. -/
theorem closeGroup_nil (e : List Char → Bool) : closeGroup e [] = false := rfl

/-- An all-class run has `takeWhile` itself and `dropWhile` empty. -/
theorem span_of_all (t : List Char) (hall : ∀ x ∈ t, isPkgChar x = true) :
    t.takeWhile isPkgChar = t ∧ t.dropWhile isPkgChar = [] := by
  have h := takeWhile_append_not isPkgChar t [] hall (by intro c r2 h2; simp at h2)
  simpa using h

/-- `pkgMatchEnd` on an explicit split into an all-class run and a residue
whose head is outside the class. -/
theorem pkgMatchEnd_decompose (e : List Char → Bool) (a rest : List Char)
    (ha : ∀ x ∈ a, isPkgChar x = true)
    (hr : ∀ c r2, rest = c :: r2 → isPkgChar c = false) :
    pkgMatchEnd e (a ++ rest) = (!a.isEmpty && (e rest || bracketGroup e rest)) := by
  obtain ⟨htw, hdw⟩ := takeWhile_append_not isPkgChar a rest ha hr
  rw [pkgMatchEnd_eq, htw, hdw]

/-- `bracketGroup` on an explicit split of the group content. -/
theorem bracketGroup_decompose (e : List Char → Bool) (g r2 : List Char)
    (hg : ∀ x ∈ g, isPkgChar x = true)
    (hr : ∀ c r3, r2 = c :: r3 → isPkgChar c = false) :
    bracketGroup e ('[' :: (g ++ r2)) = (!g.isEmpty && closeGroup e r2) := by
  obtain ⟨htw, hdw⟩ := takeWhile_append_not isPkgChar g r2 hg hr
  rw [bracketGroup_cons, if_pos rfl, htw, hdw]

/-- `bracketGroup` is monotone in its end test. -/
theorem bracketGroup_mono (e1 e2 : List Char → Bool)
    (hmono : ∀ x, e1 x = true → e2 x = true) :
    ∀ rest, bracketGroup e1 rest = true → bracketGroup e2 rest = true := by
  intro rest h
  cases rest with
  | nil => rw [bracketGroup_nil] at h; exact absurd h (by simp)
  | cons c r =>
    by_cases hc : c = '['
    · subst hc
      rw [bracketGroup_cons, if_pos rfl, Bool.and_eq_true] at h ⊢
      obtain ⟨h1, h2⟩ := h
      refine ⟨h1, ?_⟩
      cases hr2 : r.dropWhile isPkgChar with
      | nil => rw [hr2, closeGroup_nil] at h2; exact absurd h2 (by simp)
      | cons c2 r3 =>
        rw [hr2] at h2
        rw [closeGroup_cons] at h2 ⊢
        by_cases hc2 : c2 = ']'
        · rw [if_pos hc2] at h2 ⊢
          exact hmono r3 h2
        · rw [if_neg hc2] at h2; exact absurd h2 (by simp)
    · rw [bracketGroup_cons, if_neg hc] at h; exact absurd h (by simp)

/-- A match against the strict end anchor is also a match against the Python
`$` anchor. -/
theorem pkgMatch_atEnd_imp (l : List Char) (h : pkgMatchEnd atEnd l = true) :
    pkgMatchEnd pyDollar l = true := by
  rw [pkgMatchEnd_eq, Bool.and_eq_true, Bool.or_eq_true] at h ⊢
  obtain ⟨h1, h2⟩ := h
  refine ⟨h1, ?_⟩
  cases h2 with
  | inl ha =>
    left
    have hnil : l.dropWhile isPkgChar = [] := by simpa [atEnd] using ha
    simp [pyDollar, hnil]
  | inr hb =>
    right
    refine bracketGroup_mono atEnd pyDollar ?_ _ hb
    intro x hx
    have hxnil : x = [] := by simpa [atEnd] using hx
    simp [pyDollar, hxnil]

/-- Characterisation of the Python `$` anchor for the package pattern: a
match is a strict match or a strict match followed by one newline. -/
theorem pkgMatch_pyDollar_iff (l : List Char) :
    pkgMatchEnd pyDollar l = true ↔
      (pkgMatchEnd atEnd l = true ∨
        ∃ t, l = t ++ ['\n'] ∧ pkgMatchEnd atEnd t = true) := by
  constructor
  · intro h
    have hsplit : l.takeWhile isPkgChar ++ l.dropWhile isPkgChar = l :=
      List.takeWhile_append_dropWhile isPkgChar l
    have hall : ∀ x ∈ l.takeWhile isPkgChar, isPkgChar x = true :=
      fun x hx => List.mem_takeWhile_imp hx
    have hdrop : ∀ c r2, l.dropWhile isPkgChar = c :: r2 → isPkgChar c = false :=
      fun c r2 hh => dropWhile_head_false isPkgChar l c r2 hh
    rw [pkgMatchEnd_eq] at h
    set A := l.takeWhile isPkgChar with hA
    set R := l.dropWhile isPkgChar with hR
    clear_value A R
    clear hA hR
    subst hsplit
    rw [Bool.and_eq_true, Bool.or_eq_true] at h
    obtain ⟨h1, h2⟩ := h
    cases h2 with
    | inl ha =>
      have hcases : R = [] ∨ R = ['\n'] := by
        simpa [pyDollar, List.isEmpty_iff] using ha
      cases hcases with
      | inl hnil =>
        subst hnil
        left
        rw [pkgMatchEnd_decompose atEnd A [] hall (by intro c r2 hh; simp at hh)]
        simp [atEnd, h1]
      | inr hnl =>
        subst hnl
        right
        refine ⟨A, rfl, ?_⟩
        obtain ⟨htw, hdw⟩ := span_of_all A hall
        rw [pkgMatchEnd_eq, htw, hdw]
        simp [atEnd, h1]
    | inr hb =>
      cases R with
      | nil => rw [bracketGroup_nil] at hb; exact absurd hb (by simp)
      | cons c r =>
        by_cases hc : c = '['
        · subst hc
          have hrsplit : r.takeWhile isPkgChar ++ r.dropWhile isPkgChar = r :=
            List.takeWhile_append_dropWhile isPkgChar r
          have hgall : ∀ x ∈ r.takeWhile isPkgChar, isPkgChar x = true :=
            fun x hx => List.mem_takeWhile_imp hx
          have hgdrop : ∀ c2 r3, r.dropWhile isPkgChar = c2 :: r3 → isPkgChar c2 = false :=
            fun c2 r3 hh => dropWhile_head_false isPkgChar r c2 r3 hh
          rw [bracketGroup_cons, if_pos rfl, Bool.and_eq_true] at hb
          obtain ⟨hg1, hg2⟩ := hb
          set G := r.takeWhile isPkgChar with hG
          set R2 := r.dropWhile isPkgChar with hR2
          clear_value G R2
          clear hG hR2
          subst hrsplit
          cases R2 with
          | nil => rw [closeGroup_nil] at hg2; exact absurd hg2 (by simp)
          | cons c2 r3 =>
            rw [closeGroup_cons] at hg2
            by_cases hc2 : c2 = ']'
            · subst hc2
              rw [if_pos rfl] at hg2
              have hr3 : r3 = [] ∨ r3 = ['\n'] := by
                simpa [pyDollar, List.isEmpty_iff] using hg2
              cases hr3 with
              | inl h3 =>
                subst h3
                left
                rw [pkgMatchEnd_decompose atEnd A ('[' :: (G ++ [']'])) hall
                  (by intro cc rr hh; injection hh with hh1 _; rw [← hh1]; decide)]
                rw [bracketGroup_decompose atEnd G [']'] hgall
                  (by intro cc rr hh; injection hh with hh1 _; rw [← hh1]; decide)]
                simp [atEnd, closeGroup_cons, h1, hg1]
              | inr h3 =>
                subst h3
                right
                refine ⟨A ++ '[' :: (G ++ [']']), by simp, ?_⟩
                rw [pkgMatchEnd_decompose atEnd A ('[' :: (G ++ [']'])) hall
                  (by intro cc rr hh; injection hh with hh1 _; rw [← hh1]; decide)]
                rw [bracketGroup_decompose atEnd G [']'] hgall
                  (by intro cc rr hh; injection hh with hh1 _; rw [← hh1]; decide)]
                simp [atEnd, closeGroup_cons, h1, hg1]
            · rw [if_neg hc2] at hg2; exact absurd hg2 (by simp)
        · rw [bracketGroup_cons, if_neg hc] at hb; exact absurd hb (by simp)
  · intro h
    cases h with
    | inl ha => exact pkgMatch_atEnd_imp l ha
    | inr hb =>
      obtain ⟨t, rfl, ht⟩ := hb
      have hsplit : t.takeWhile isPkgChar ++ t.dropWhile isPkgChar = t :=
        List.takeWhile_append_dropWhile isPkgChar t
      have hall : ∀ x ∈ t.takeWhile isPkgChar, isPkgChar x = true :=
        fun x hx => List.mem_takeWhile_imp hx
      have hdrop : ∀ c r2, t.dropWhile isPkgChar = c :: r2 → isPkgChar c = false :=
        fun c r2 hh => dropWhile_head_false isPkgChar t c r2 hh
      rw [pkgMatchEnd_eq] at ht
      set A := t.takeWhile isPkgChar with hA
      set R := t.dropWhile isPkgChar with hR
      clear_value A R
      clear hA hR
      subst hsplit
      rw [Bool.and_eq_true, Bool.or_eq_true] at ht
      obtain ⟨h1, h2⟩ := ht
      rw [List.append_assoc]
      cases h2 with
      | inl hend =>
        have hRnil : R = [] := by simpa [atEnd] using hend
        subst hRnil
        rw [List.nil_append]
        rw [pkgMatchEnd_decompose pyDollar A ['\n'] hall
          (by intro cc rr hh; injection hh with hh1 _; rw [← hh1]; decide)]
        simp [pyDollar, h1]
      | inr hbr =>
        cases R with
        | nil => rw [bracketGroup_nil] at hbr; exact absurd hbr (by simp)
        | cons c r =>
          by_cases hc : c = '['
          · subst hc
            have hrsplit : r.takeWhile isPkgChar ++ r.dropWhile isPkgChar = r :=
              List.takeWhile_append_dropWhile isPkgChar r
            have hgall : ∀ x ∈ r.takeWhile isPkgChar, isPkgChar x = true :=
              fun x hx => List.mem_takeWhile_imp hx
            have hgdrop : ∀ c2 r3, r.dropWhile isPkgChar = c2 :: r3 → isPkgChar c2 = false :=
              fun c2 r3 hh => dropWhile_head_false isPkgChar r c2 r3 hh
            rw [bracketGroup_cons, if_pos rfl, Bool.and_eq_true] at hbr
            obtain ⟨hg1, hg2⟩ := hbr
            set G := r.takeWhile isPkgChar with hG
            set R2 := r.dropWhile isPkgChar with hR2
            clear_value G R2
            clear hG hR2
            subst hrsplit
            cases R2 with
            | nil => rw [closeGroup_nil] at hg2; exact absurd hg2 (by simp)
            | cons c2 r3 =>
              rw [closeGroup_cons] at hg2
              by_cases hc2 : c2 = ']'
              · subst hc2
                rw [if_pos rfl] at hg2
                have hr3 : r3 = [] := by simpa [atEnd] using hg2
                subst hr3
                simp only [List.cons_append, List.nil_append, List.append_assoc]
                rw [pkgMatchEnd_decompose pyDollar A ('[' :: (G ++ (']' :: ['\n']))) hall
                  (by intro cc rr hh; injection hh with hh1 _; rw [← hh1]; decide)]
                rw [bracketGroup_decompose pyDollar G (']' :: ['\n']) hgall
                  (by intro cc rr hh; injection hh with hh1 _; rw [← hh1]; decide)]
                simp [pyDollar, closeGroup_cons, h1, hg1]
              · rw [if_neg hc2] at hg2; exact absurd hg2 (by simp)
          · rw [bracketGroup_cons, if_neg hc] at hbr; exact absurd hbr (by simp)

/-- Every list is a component prefix of itself. -/
theorem isPrefixOf_self (w : List String) : w.isPrefixOf w = true :=
  List.isPrefixOf_iff_prefix.mpr (List.prefix_refl w)

/-- C1: for every path whose canonical form lies outside the workspace
(covering `../x`, absolute paths outside the root, and symlinks resolving
outside), each of the five file operations returns the containment-error
string and returns the filesystem unchanged: nothing is created, modified or
appended. -/
theorem c1_escape_error_no_mutation (fuel : Nat) (cfg : Config) (fs : FNode)
    (p content : String) (t w : List String)
    (h1 : resolvePath fuel fs (pathJoin cfg.workspace (parsePath p)) = some t)
    (h2 : resolvePath fuel fs cfg.workspace = some w)
    (h3 : w.isPrefixOf t = false) :
    make_new_dir fuel cfg fs p = ("错误：" ++ escapeMsg p, fs) ∧
    write_in_file fuel cfg fs p content = ("错误：" ++ escapeMsg p, fs) ∧
    append_to_file fuel cfg fs p content = ("错误：" ++ escapeMsg p, fs) ∧
    read_file fuel cfg fs p = ("错误：" ++ escapeMsg p, fs) ∧
    list_files fuel cfg fs p = ("错误：" ++ escapeMsg p, fs) := by
  have key : get_safe_path fuel fs cfg.workspace p = .error (.escape (escapeMsg p)) := by
    simp only [get_safe_path]
    rw [h1, h2]
    simp [h3]
  refine ⟨?_, ?_, ?_, ?_, ?_⟩
  · simp [make_new_dir, key]
  · simp [write_in_file, key]
  · simp [append_to_file, key]
  · simp [read_file, key]
  · simp [list_files, key]

/-- C1 witness: `../x` escapes the `/ws` workspace; `make_new_dir` and
`write_in_file` report the containment error and leave the filesystem as it
was. -/
theorem c1_escape_error_no_mutation_witness :
    resolvePath 10 fsW (pathJoin cfgW.workspace (parsePath "../x")) = some ["x"] ∧
    resolvePath 10 fsW cfgW.workspace = some ["ws"] ∧
    (["ws"] : List String).isPrefixOf ["x"] = false ∧
    make_new_dir 10 cfgW fsW "../x" = ("错误：" ++ escapeMsg "../x", fsW) ∧
    write_in_file 10 cfgW fsW "../x" "hi" = ("错误：" ++ escapeMsg "../x", fsW) := by
  refine ⟨by decide, by decide, by decide, ?_, ?_⟩
  · exact (c1_escape_error_no_mutation 10 cfgW fsW "../x" "hi" ["x"] ["ws"]
      (by decide) (by decide) (by decide)).1
  · exact (c1_escape_error_no_mutation 10 cfgW fsW "../x" "hi" ["x"] ["ws"]
      (by decide) (by decide) (by decide)).2.1

/-- C2: the guard fails with the path-escape error exactly when the resolved
workspace is not a prefix of the resolved target; the empty path resolves to
the workspace root and is accepted; a target equal to the root is accepted; a
strict ancestor of the root is rejected. -/
theorem c2_safe_path_characterisation (fuel : Nat) (fs : FNode) (ws : List String)
    (p : String) (t w : List String)
    (h1 : resolvePath fuel fs (pathJoin ws (parsePath p)) = some t)
    (h2 : resolvePath fuel fs ws = some w) :
    ((∃ m, get_safe_path fuel fs ws p = .error (.escape m)) ↔ w.isPrefixOf t = false) ∧
    (get_safe_path fuel fs ws p = .ok t ↔ w.isPrefixOf t = true) ∧
    (p = "" → get_safe_path fuel fs ws p = .ok w) ∧
    (t = w → get_safe_path fuel fs ws p = .ok t) ∧
    (t ≠ w → t.isPrefixOf w = true →
      ∃ m, get_safe_path fuel fs ws p = .error (.escape m)) := by
  have key : get_safe_path fuel fs ws p =
      (if w.isPrefixOf t = true then .ok t else .error (.escape (escapeMsg p))) := by
    simp only [get_safe_path]
    rw [h1, h2]
  refine ⟨?_, ?_, ?_, ?_, ?_⟩
  · constructor
    · rintro ⟨m, hm⟩
      cases hpre : w.isPrefixOf t with
      | true =>
        rw [key, if_pos hpre] at hm
        exact absurd hm (by simp)
      | false => rfl
    · intro hfalse
      refine ⟨escapeMsg p, ?_⟩
      rw [key, if_neg (by simp [hfalse])]
  · constructor
    · intro hok
      cases hpre : w.isPrefixOf t with
      | true => rfl
      | false =>
        rw [key, if_neg (by simp [hpre])] at hok
        exact absurd hok (by simp)
    · intro hpre
      rw [key, if_pos hpre]
  · intro hempty
    subst hempty
    have hjoin : pathJoin ws (parsePath "") = ws := by
      rw [show parsePath "" = (false, []) from rfl]
      simp [pathJoin]
    rw [hjoin] at h1
    have htw : t = w := by
      rw [h1] at h2
      exact Option.some.inj h2
    subst htw
    rw [key, if_pos (isPrefixOf_self t)]
  · intro hteq
    subst hteq
    rw [key, if_pos (isPrefixOf_self t)]
  · intro hne hanc
    cases hpre : w.isPrefixOf t with
    | true => exact absurd (isPrefixOf_antisymm t w hanc hpre) hne
    | false =>
      refine ⟨escapeMsg p, ?_⟩
      rw [key, if_neg (by simp [hpre])]

/-- C2 witness: `sub` inside `/ws` is accepted with the resolved target. -/
theorem c2_safe_path_characterisation_witness :
    resolvePath 10 fsW (pathJoin ["ws"] (parsePath "sub")) = some ["ws", "sub"] ∧
    resolvePath 10 fsW ["ws"] = some ["ws"] ∧
    get_safe_path 10 fsW ["ws"] "sub" = .ok ["ws", "sub"] := by
  refine ⟨by decide, by decide, ?_⟩
  exact ((c2_safe_path_characterisation 10 fsW ["ws"] "sub" ["ws", "sub"] ["ws"]
    (by decide) (by decide)).2.1).mpr (by decide)

/-- C10: an absolute argument discards the workspace in the join
(`Path.__truediv__`), and the guard then accepts it exactly when it resolves
to the workspace root or one of its descendants — so the operations accept
absolute in-workspace paths without double-prefixing. -/
theorem c10_absolute_path_join (fuel : Nat) (fs : FNode) (ws : List String)
    (a : String) (comps t w : List String)
    (hp : parsePath a = (true, comps))
    (h1 : resolvePath fuel fs comps = some t)
    (h2 : resolvePath fuel fs ws = some w) :
    pathJoin ws (parsePath a) = comps ∧
    (get_safe_path fuel fs ws a = .ok t ↔ w.isPrefixOf t = true) := by
  have hj : pathJoin ws (parsePath a) = comps := by
    rw [hp]
    simp [pathJoin]
  refine ⟨hj, ?_⟩
  have key : get_safe_path fuel fs ws a =
      (if w.isPrefixOf t = true then .ok t else .error (.escape (escapeMsg a))) := by
    simp only [get_safe_path]
    rw [hj, h1, h2]
  constructor
  · intro hok
    cases hpre : w.isPrefixOf t with
    | true => rfl
    | false =>
      rw [key, if_neg (by simp [hpre])] at hok
      exact absurd hok (by simp)
  · intro hpre
    rw [key, if_pos hpre]

/-- C10 witness: the absolute in-workspace path `/ws/x` is accepted without
double-prefixing the workspace. -/
theorem c10_absolute_path_join_witness :
    parsePath "/ws/x" = (true, ["ws", "x"]) ∧
    resolvePath 10 fsW ["ws", "x"] = some ["ws", "x"] ∧
    get_safe_path 10 fsW ["ws"] "/ws/x" = .ok ["ws", "x"] := by
  refine ⟨by decide, by decide, ?_⟩
  exact ((c10_absolute_path_join 10 fsW ["ws"] "/ws/x" ["ws", "x"] ["ws", "x"] ["ws"]
    (by decide) (by decide) (by decide)).2).mpr (by decide)

/-- C3 counterexample: the claim says every string containing a character
outside the class is rejected, but `"pkg\n"` — whose final newline is outside
the class — is accepted, because Python `$` also matches just before one
trailing newline. -/
theorem c3_validate_package_counterexample :
    validate_package_name "pkg\n" = true ∧
    package_name_spec "pkg\n" = false ∧
    ('\n' ∈ "pkg\n".data ∧ isPkgChar '\n' = false) := by
  refine ⟨by decide, by decide, by decide, by decide⟩

/-- C3, amended: `_validate_package_name` returns true exactly when the
string matches the documented pattern (one or more class characters,
optionally one bracketed extras group) or is such a match followed by one
trailing newline; the spec's three examples behave as stated. -/
theorem c3_validate_package_amended :
    (∀ s : String, validate_package_name s = true ↔
      (package_name_spec s = true ∨
        ∃ t : List Char, s.data = t ++ ['\n'] ∧ pkgMatchEnd atEnd t = true)) ∧
    validate_package_name "uvicorn[standard]" = true ∧
    validate_package_name "pkg; rm -rf /" = false ∧
    validate_package_name "../evil" = false := by
  refine ⟨?_, by decide, by decide, by decide⟩
  intro s
  exact pkgMatch_pyDollar_iff s.data

/-- C4 counterexample: with a 4-byte cap and the file `ééa` (3 characters, 5
= 4 + 1 bytes), `read_file` returns all three characters plus the notice —
not the decoded first 4 bytes (`éé`) plus the notice as the claim states —
because `f.read(limit)` counts characters, not bytes; and the notice text
names no `4`, so it does not state the configured cap. -/
theorem c4_read_truncation_counterexample :
    (read_file 10 cfgSmall fsBig "big.txt").1 = "ééa" ++ truncNotice ∧
    utf8Len "ééa".data = cfgSmall.max_file_size + 1 ∧
    utf8Len "éé".data = cfgSmall.max_file_size ∧
    "ééa" ++ truncNotice ≠ "éé" ++ truncNotice ∧
    ("ééa" ++ truncNotice).data.contains '4' = false := by
  refine ⟨by decide, by decide, by decide, by decide, by decide⟩

/-- C4, amended: on a guarded existing file, `read_file` returns the first
`max_file_size` *characters* of the decoded content, with the fixed
truncation notice (naming the 100KB default, independent of the configured
cap and of the file's true size) appended exactly when the file's byte size
exceeds the cap; for an all-ASCII file of byte size `max_file_size + 1`,
characters coincide with bytes, so the result is exactly `max_file_size`
bytes of content plus the notice. -/
theorem c4_read_truncation_amended (fuel : Nat) (cfg : Config) (fs : FNode)
    (p : String) (r : List String) (ct : List Char)
    (hg : get_safe_path fuel fs cfg.workspace p = .ok r)
    (hf : fsLookup r fs = some (.file ct)) :
    (read_file fuel cfg fs p).1 =
      (⟨ct.take cfg.max_file_size⟩ : String) ++
        (if utf8Len ct > cfg.max_file_size then truncNotice else "") ∧
    ((∀ c ∈ ct, utf8CharBytes c = 1) → utf8Len ct = cfg.max_file_size + 1 →
      ((read_file fuel cfg fs p).1 = (⟨ct.take cfg.max_file_size⟩ : String) ++ truncNotice ∧
        (ct.take cfg.max_file_size).length = cfg.max_file_size)) := by
  have hread : read_file fuel cfg fs p =
      (if utf8Len ct > cfg.max_file_size
        then ((⟨ct.take cfg.max_file_size⟩ : String) ++ truncNotice, fs)
        else ((⟨ct.take cfg.max_file_size⟩ : String), fs)) := by
    simp only [read_file, hg, hf]
  constructor
  · rw [hread]
    split_ifs with hcond
    · rfl
    · rw [String.append_empty]
  · intro hascii hsize
    have hlen : utf8Len ct = ct.length := utf8Len_ascii ct hascii
    have hlen2 : ct.length = cfg.max_file_size + 1 := by omega
    constructor
    · rw [hread, if_pos (by omega)]
    · rw [List.length_take]
      omega

/-- C4 amended witness: with a 2-byte cap, reading the ASCII file `abc`
returns its first two characters (= two bytes) plus the notice. -/
theorem c4_read_truncation_amended_witness :
    get_safe_path 10 fsAscii cfgTwo.workspace "f.txt" = .ok ["ws", "f.txt"] ∧
    fsLookup ["ws", "f.txt"] fsAscii = some (.file "abc".data) ∧
    (∀ c ∈ "abc".data, utf8CharBytes c = 1) ∧
    utf8Len "abc".data = cfgTwo.max_file_size + 1 ∧
    ((read_file 10 cfgTwo fsAscii "f.txt").1 =
      (⟨"abc".data.take cfgTwo.max_file_size⟩ : String) ++ truncNotice ∧
      ("abc".data.take cfgTwo.max_file_size).length = cfgTwo.max_file_size) := by
  refine ⟨rfl, rfl, by decide, by decide, ?_⟩
  exact (c4_read_truncation_amended 10 cfgTwo fsAscii "f.txt" ["ws", "f.txt"]
    "abc".data rfl rfl).2 (by decide) (by decide)

/-- C5 (code bug): the docstring and spec promise directories before files in
sorted order, but `list_files` emits entries in raw `iterdir` enumeration
order: on a directory enumerated as `a.txt` (file) before `b` (directory),
the file line comes first. -/
theorem c5_list_files_enumeration_order :
    (list_files 10 cfgW fsList "d").1 = "[FILE] a.txt (1 bytes)\n[DIR]  b" := by
  decide

/-- C6: a successful `write_in_file` followed by `read_file` on the same path
returns exactly the written content, when the content's encoded byte length
(the unit of `max_file_size`) is below the cap. -/
theorem c6_write_read_roundtrip (fuel : Nat) (cfg : Config) (fs : FNode)
    (p content : String) (r : List String) (fs2 : FNode)
    (hsize : utf8Len content.data < cfg.max_file_size)
    (hw : write_in_file fuel cfg fs p content =
      ("文件 " ++ pathStr r ++ " 写入成功。", fs2)) :
    (read_file fuel cfg fs2 p).1 = content := by
  have hxd : ("文件 " ++ pathStr r).data = '文' :: ('件' :: (' ' :: (pathStr r).data)) := by
    rw [String.data_append]
    rfl
  simp only [write_in_file] at hw
  split at hw
  · exact absurd (congrArg Prod.fst hw)
      (append_head_ne "错误：" _ ("文件 " ++ pathStr r) " 写入成功。" '错' '文' _ _
        rfl hxd (by decide))
  · exact absurd (congrArg Prod.fst hw)
      (append_head_ne "写入失败：" _ ("文件 " ++ pathStr r) " 写入成功。" '写' '文' _ _
        rfl hxd (by decide))
  · rename_i r2 heq
    split at hw
    · exact absurd (congrArg Prod.fst hw)
        (append_head_ne "写入失败：" _ ("文件 " ++ pathStr r) " 写入成功。" '写' '文' _ _
          rfl hxd (by decide))
    · rename_i fs1 hmk
      split at hw
      · rename_i fs2x hwr
        have hfs : fs2x = fs2 := congrArg Prod.snd hw
        subst hfs
        have hpres : ∀ q, symlinkAt fs2x q = symlinkAt fs q := by
          intro q
          rw [symlinkAt_fsWrite r2 content.data fs1 fs2x hwr q,
            symlinkAt_fsMkdirP r2.dropLast fs fs1 hmk q]
        have hg2 : get_safe_path fuel fs2x cfg.workspace p = .ok r2 := by
          rw [get_safe_path_congr fuel fs fs2x cfg.workspace p hpres, heq]
        have hlook : fsLookup r2 fs2x = some (.file content.data) :=
          fsLookup_fsWrite r2 content.data fs1 fs2x hwr
        simp only [read_file, hg2, hlook]
        rw [if_neg (by omega)]
        have htake : content.data.take cfg.max_file_size = content.data :=
          List.take_of_length_le
            (le_trans (length_le_utf8Len content.data) (le_of_lt hsize))
        rw [htake]
      · exact absurd (congrArg Prod.fst hw)
          (append_head_ne "写入失败：" _ ("文件 " ++ pathStr r) " 写入成功。" '写' '文' _ _
            rfl hxd (by decide))

/-- C6 witness: writing `hi` to `a.txt` in the empty workspace succeeds and
reading it back yields exactly `hi`. -/
theorem c6_write_read_roundtrip_witness :
    utf8Len "hi".data < cfgW.max_file_size ∧
    write_in_file 10 cfgW fsW "a.txt" "hi" =
      ("文件 " ++ pathStr ["ws", "a.txt"] ++ " 写入成功。", fsWHi) ∧
    (read_file 10 cfgW fsWHi "a.txt").1 = "hi" := by
  refine ⟨by decide, rfl, ?_⟩
  exact c6_write_read_roundtrip 10 cfgW fsW "a.txt" "hi" ["ws", "a.txt"] fsWHi
    (by decide) rfl

/-- C7: on completion, the result of `execute_command` is exactly the
return-code line, followed by a stdout section (present exactly when stdout
is non-empty, truncated to `max_output_length` characters, with the notice
appended exactly when the original was longer), followed by the analogous
independent stderr section; with both streams empty the result is only the
return-code line, and the `exit 7` instance yields `返回码：7` alone. -/
theorem c7_execute_completion_format (cfg : Config) (se : Bool) (cmd : String)
    (r : CompletedProcess) :
    execute_command cfg se cmd (.completed r) =
      "返回码：" ++ toString r.returncode ++ "\n"
        ++ (if r.stdout.isEmpty then "" else
              "输出:\n" ++ strTake r.stdout cfg.max_output_length ++ "\n"
                ++ (if r.stdout.length > cfg.max_output_length then
                      "\n... (输出过长，已截断)" else ""))
        ++ (if r.stderr.isEmpty then "" else
              "错误:\n" ++ strTake r.stderr cfg.max_output_length
                ++ (if r.stderr.length > cfg.max_output_length then
                      "\n... (错误信息过长，已截断)" else "")) ∧
    (∀ rc : Int, execute_command cfg se cmd (.completed ⟨rc, "", ""⟩) =
      "返回码：" ++ toString rc ++ "\n") ∧
    execute_command cfg se cmd (.completed ⟨7, "", ""⟩) = "返回码：7\n" := by
  refine ⟨?_, ?_, ?_⟩
  · simp only [execute_command]
    split_ifs <;>
      (apply String.ext
       simp only [String.append_empty, String.data_append, List.append_assoc])
  · intro rc
    rfl
  · rfl

/-- Appending on the right preserves a fixed textual head. -/
theorem string_pre_extend (pre x y : String) (h : ∃ u, x = pre ++ u) :
    ∃ u, x ++ y = pre ++ u := by
  obtain ⟨u, rfl⟩ := h
  exact ⟨u ++ y, String.append_assoc pre u y⟩

/-- Every result of `execute_command` either reports an error (`错误：`
head) or reports a completed run (`返回码：` head). -/
theorem execute_command_shapes (cfg : Config) (se : Bool) (cmd : String)
    (outc : ExecOutcome) :
    (∃ m, execute_command cfg se cmd outc = "错误：" ++ m) ∨
    (∃ u, execute_command cfg se cmd outc = "返回码：" ++ u) := by
  cases outc with
  | timeout =>
    left
    refine ⟨"命令执行超时。", ?_⟩
    have h : execute_command cfg se cmd .timeout = "错误：命令执行超时。" := rfl
    rw [h]
    decide
  | failure m => exact Or.inl ⟨m, rfl⟩
  | completed r =>
    right
    simp only [execute_command]
    split_ifs <;>
      (repeat
        first
        | exact ⟨_, rfl⟩
        | apply string_pre_extend)

/-- C9: every public operation returns a plain result string for every guard
verdict and filesystem or process outcome — never an exception — and every
failure branch carries one of the fixed error markers; successes take the
operation's documented success shape. -/
theorem c9_uniform_string_boundary (fuel : Nat) (cfg : Config) (fs : FNode)
    (p c cmd name : String) (se : Bool) (outc : ExecOutcome) :
    (errorMarked (make_new_dir fuel cfg fs p).1 ∨
      ∃ r, (make_new_dir fuel cfg fs p).1 = "目录 " ++ pathStr r ++ " 创建成功。") ∧
    (errorMarked (write_in_file fuel cfg fs p c).1 ∨
      ∃ r, (write_in_file fuel cfg fs p c).1 = "文件 " ++ pathStr r ++ " 写入成功。") ∧
    (errorMarked (append_to_file fuel cfg fs p c).1 ∨
      ∃ r, (append_to_file fuel cfg fs p c).1 = "已向 " ++ pathStr r ++ " 追加内容。") ∧
    (errorMarked (read_file fuel cfg fs p).1 ∨
      ∃ ct : List Char,
        (read_file fuel cfg fs p).1 = (⟨ct.take cfg.max_file_size⟩ : String) ∨
        (read_file fuel cfg fs p).1 =
          (⟨ct.take cfg.max_file_size⟩ : String) ++ truncNotice) ∧
    (errorMarked (list_files fuel cfg fs p).1 ∨
      (list_files fuel cfg fs p).1 = "目录为空。" ∨
      ∃ lines, (list_files fuel cfg fs p).1 = String.intercalate "\n" lines) ∧
    (errorMarked (execute_command cfg se cmd outc) ∨
      ∃ u, execute_command cfg se cmd outc = "返回码：" ++ u) ∧
    (errorMarked (install_package cfg se name outc) ∨
      ∃ u, install_package cfg se name outc = "返回码：" ++ u) := by
  have hm1 : "错误：" ∈ errorMarkers := by simp [errorMarkers]
  have hm2 : "创建失败：" ∈ errorMarkers := by simp [errorMarkers]
  have hm3 : "写入失败：" ∈ errorMarkers := by simp [errorMarkers]
  have hm4 : "追加失败：" ∈ errorMarkers := by simp [errorMarkers]
  have hm5 : "读取失败：" ∈ errorMarkers := by simp [errorMarkers]
  have hm6 : "列出文件失败：" ∈ errorMarkers := by simp [errorMarkers]
  have hfile : "错误：文件 " = "错误：" ++ "文件 " := by decide
  have hdir : "错误：目录 " = "错误：" ++ "目录 " := by decide
  have hpkg : "错误：无效的包名格式：" = "错误：" ++ "无效的包名格式：" := by decide
  refine ⟨?_, ?_, ?_, ?_, ?_, ?_, ?_⟩
  · cases hg : get_safe_path fuel fs cfg.workspace p with
    | error e =>
      cases e with
      | escape m => exact Or.inl ⟨"错误：", m, hm1, by simp [make_new_dir, hg]⟩
      | os m => exact Or.inl ⟨"创建失败：", m, hm2, by simp [make_new_dir, hg]⟩
    | ok r =>
      cases hmk : fsMkdirP r fs with
      | some fsx => exact Or.inr ⟨r, by simp [make_new_dir, hg, hmk]⟩
      | none => exact Or.inl ⟨"创建失败：", oserrText, hm2, by simp [make_new_dir, hg, hmk]⟩
  · cases hg : get_safe_path fuel fs cfg.workspace p with
    | error e =>
      cases e with
      | escape m => exact Or.inl ⟨"错误：", m, hm1, by simp [write_in_file, hg]⟩
      | os m => exact Or.inl ⟨"写入失败：", m, hm3, by simp [write_in_file, hg]⟩
    | ok r =>
      cases hmk : fsMkdirP r.dropLast fs with
      | none => exact Or.inl ⟨"写入失败：", oserrText, hm3, by simp [write_in_file, hg, hmk]⟩
      | some fs1 =>
        cases hwr : fsWrite r c.data fs1 with
        | some fsx => exact Or.inr ⟨r, by simp [write_in_file, hg, hmk, hwr]⟩
        | none => exact Or.inl ⟨"写入失败：", oserrText, hm3, by simp [write_in_file, hg, hmk, hwr]⟩
  · cases hg : get_safe_path fuel fs cfg.workspace p with
    | error e =>
      cases e with
      | escape m => exact Or.inl ⟨"错误：", m, hm1, by simp [append_to_file, hg]⟩
      | os m => exact Or.inl ⟨"追加失败：", m, hm4, by simp [append_to_file, hg]⟩
    | ok r =>
      cases hmk : fsMkdirP r.dropLast fs with
      | none => exact Or.inl ⟨"追加失败：", oserrText, hm4, by simp [append_to_file, hg, hmk]⟩
      | some fs1 =>
        cases hwr : fsAppend r c.data fs1 with
        | some fsx => exact Or.inr ⟨r, by simp [append_to_file, hg, hmk, hwr]⟩
        | none => exact Or.inl ⟨"追加失败：", oserrText, hm4, by simp [append_to_file, hg, hmk, hwr]⟩
  · cases hg : get_safe_path fuel fs cfg.workspace p with
    | error e =>
      cases e with
      | escape m => exact Or.inl ⟨"错误：", m, hm1, by simp [read_file, hg]⟩
      | os m => exact Or.inl ⟨"读取失败：", m, hm5, by simp [read_file, hg]⟩
    | ok r =>
      cases hlook : fsLookup r fs with
      | none =>
        refine Or.inl ⟨"错误：", "文件 " ++ (p ++ " 不存在。"), hm1, ?_⟩
        simp only [read_file, hg, hlook]
        rw [hfile, String.append_assoc, String.append_assoc]
      | some node =>
        cases node with
        | dir es =>
          refine Or.inl ⟨"错误：", p ++ " 是一个目录，请使用 list_files 查看。", hm1, ?_⟩
          simp only [read_file, hg, hlook]
          rw [String.append_assoc]
        | symlink tg => exact Or.inl ⟨"读取失败：", oserrText, hm5, by simp [read_file, hg, hlook]⟩
        | file ct =>
          by_cases hbig : utf8Len ct > cfg.max_file_size
          · exact Or.inr ⟨ct, Or.inr (by simp [read_file, hg, hlook, hbig])⟩
          · exact Or.inr ⟨ct, Or.inl (by simp [read_file, hg, hlook, hbig])⟩
  · cases hg : get_safe_path fuel fs cfg.workspace p with
    | error e =>
      cases e with
      | escape m => exact Or.inl ⟨"错误：", m, hm1, by simp [list_files, hg]⟩
      | os m => exact Or.inl ⟨"列出文件失败：", m, hm6, by simp [list_files, hg]⟩
    | ok r =>
      cases hlook : fsLookup r fs with
      | none =>
        refine Or.inl ⟨"错误：", "目录 " ++ (p ++ " 不存在。"), hm1, ?_⟩
        simp only [list_files, hg, hlook]
        rw [hdir, String.append_assoc, String.append_assoc]
      | some node =>
        cases node with
        | file ct => exact Or.inl ⟨"列出文件失败：", oserrText, hm6, by simp [list_files, hg, hlook]⟩
        | symlink tg => exact Or.inl ⟨"列出文件失败：", oserrText, hm6, by simp [list_files, hg, hlook]⟩
        | dir es =>
          by_cases hemp : es.isEmpty
          · exact Or.inr (Or.inl (by simp [list_files, hg, hlook, hemp]))
          · exact Or.inr (Or.inr ⟨es.map fmtEntry, by simp [list_files, hg, hlook, hemp]⟩)
  · cases execute_command_shapes cfg se cmd outc with
    | inl h => exact Or.inl (by obtain ⟨m, hm⟩ := h; exact ⟨"错误：", m, hm1, hm⟩)
    | inr h => exact Or.inr h
  · by_cases hv : validate_package_name name
    · have hinst : install_package cfg se name outc =
          execute_command cfg se ("uv pip install -q " ++ name) outc := by
        simp [install_package, hv]
      rw [hinst]
      cases execute_command_shapes cfg se ("uv pip install -q " ++ name) outc with
      | inl h => exact Or.inl (by obtain ⟨m, hm⟩ := h; exact ⟨"错误：", m, hm1, hm⟩)
      | inr h => exact Or.inr h
    · refine Or.inl ⟨"错误：", "无效的包名格式：" ++ name, hm1, ?_⟩
      have hinst : install_package cfg se name outc = "错误：无效的包名格式：" ++ name := by
        simp [install_package, hv]
      rw [hinst, hpkg, String.append_assoc]
